import Mathlib

/-!
Shallow embedding of the Spectrum Shuffle simulator
(src/spectrum_shuffle.py) in Lean 4.

The Python module simulates a simple board game: players draw colour
cards from a shuffled 12-card deck (two cards per colour, six colours)
and advance on a six-space board; the first player whose position
reaches or passes space index 5 wins.  A batch runner aggregates many
games into win counts and turn statistics.

Randomness is the only impurity.  We model it explicitly:
a shuffle is an arbitrary permutation of the fixed base deck, and the
game consumes a stream of decks, one per replenishment.
-/

namespace SpectrumShuffle

/-- The fixed colour list, in source order (spectrum_shuffle.py line 9). -/
def COLORS : List String := ["Red", "Orange", "Yellow", "Green", "Blue", "Violet"]

/-- Number of spaces on the board: the number of colours (line 10). -/
def BOARD_SIZE : Nat := COLORS.length

theorem BOARD_SIZE_eq : BOARD_SIZE = 6 := rfl

/-- The unshuffled deck, two cards per colour: Python COLORS * 2 (line 19). -/
def baseDeck : List String := COLORS ++ COLORS

/-- Model of create_deck (lines 17-21): random.shuffle applies some
permutation of the 12 positions to the base deck; the permutation is the
explicit random input. -/
def create_deck (σ : Equiv.Perm (Fin baseDeck.length)) : List String :=
  List.ofFn (fun i => baseDeck.get (σ i))

/-- Result record of one game: the dict returned at line 64. -/
structure GameResult where
  winner : Nat
  turns : Nat
deriving DecidableEq

/-- The mutable state of the play_game loop (lines 40-43): player
positions, the current deck with its draw cursor, and the turn counter.
The field decks_used counts how many decks have been taken from the
random stream, so replenishment can draw the next fresh deck. -/
structure GameState where
  positions : List Nat
  deck : List String
  deck_index : Nat
  turn : Nat
  decks_used : Nat
deriving DecidableEq

/-- State at loop entry (lines 40-43): all positions 0, a first deck
taken from the stream, cursor and turn counter 0. -/
def initState (decks : Nat → List String) (num_players : Nat) : GameState :=
  { positions := List.replicate num_players 0
    deck := decks 0
    deck_index := 0
    turn := 0
    decks_used := 1 }

/-- Deck replenishment (lines 49-51): when the cursor has reached the
deck length, replace the deck by the next fresh deck from the stream and
reset the cursor to 0. -/
def replenish (decks : Nat → List String) (s : GameState) : GameState :=
  if s.deck.length ≤ s.deck_index then
    { s with deck := decks s.decks_used, deck_index := 0,
             decks_used := s.decks_used + 1 }
  else s

/-- The card drawn this turn (line 53), after any replenishment. -/
def drawnCard (decks : Nat → List String) (s : GameState) : String :=
  (replenish decks s).deck.getD (replenish decks s).deck_index ""

/-- Index of the drawn card in the fixed colour ordering (line 57). -/
def drawnColorIndex (decks : Nat → List String) (s : GameState) : Nat :=
  COLORS.indexOf (drawnCard decks s)

/-- One turn up to and including the position update (lines 49-61):
replenish if needed, draw a card, advance the cursor, and move the
current player by the movement rule: to the colour index C directly when
C exceeds the current position, and to C + BOARD_SIZE otherwise. -/
def moveState (decks : Nat → List String) (n : Nat) (s : GameState) : GameState :=
  let s1 := replenish decks s
  let C := drawnColorIndex decks s
  let cur := s.turn % n
  let newPos := if s1.positions.getD cur 0 < C then C else C + BOARD_SIZE
  { s1 with deck_index := s1.deck_index + 1,
            positions := s1.positions.set cur newPos }

/-- One full iteration of the while loop (lines 45-66): perform the move
and then the win check of line 63.  Returns the final GameResult when
the mover's new position reaches BOARD_SIZE - 1, and the next loop state
(with the turn counter incremented, line 66) otherwise. -/
def step (decks : Nat → List String) (n : Nat) (s : GameState) :
    GameState ⊕ GameResult :=
  if BOARD_SIZE - 1 ≤ (moveState decks n s).positions.getD (s.turn % n) 0 then
    Sum.inr { winner := s.turn % n, turns := s.turn + 1 }
  else
    Sum.inl { moveState decks n s with turn := s.turn + 1 }

/-- Fuelled unfolding of the while loop: none means the fuel ran out
before the game ended. -/
def playGameAux (decks : Nat → List String) (n : Nat) :
    Nat → GameState → Option GameResult
  | 0, _ => none
  | fuel + 1, s =>
    match step decks n s with
    | Sum.inr r => some r
    | Sum.inl s1 => playGameAux decks n fuel s1

/-- play_game (lines 24-66), with the random shuffles supplied as a
stream of decks and an explicit fuel bound on loop iterations. -/
def play_game (decks : Nat → List String) (num_players fuel : Nat) :
    Option GameResult :=
  playGameAux decks num_players fuel (initState decks num_players)

/-- Runs k loop iterations from a state; inl is the state at the start
of iteration k + 1, inr means the game ended within the k iterations. -/
def run_steps (decks : Nat → List String) (n : Nat) :
    Nat → GameState → GameState ⊕ GameResult
  | 0, s => Sum.inl s
  | k + 1, s =>
    match step decks n s with
    | Sum.inl s1 => run_steps decks n k s1
    | Sum.inr r => Sum.inr r

/-- A state is reachable when some number of loop iterations from the
initial state lands on it (a loop-head state of the game). -/
def Reachable (decks : Nat → List String) (n : Nat) (s : GameState) : Prop :=
  ∃ k, run_steps decks n k (initState decks n) = Sum.inl s

/-- Statistics record built at lines 92-97.  wins_per_player is the
total function sending a player index to its win count (indices that
never won map to 0, matching absence from the Python dict). -/
structure SimulationStats where
  wins_per_player : Nat → Nat
  avg_turns : ℚ
  min_turns : Nat
  max_turns : Nat

/-- Aggregation of run_simulations (lines 84-98) over the list of
per-game results produced by the loop.  Python raises ZeroDivisionError
at line 94 when the list is empty; that failure is the none case. -/
def run_simulations (results : List GameResult) : Option SimulationStats :=
  match results with
  | [] => none
  | r :: rs =>
    let all_turns := (r :: rs).map GameResult.turns
    some
      { wins_per_player := fun p => ((r :: rs).map GameResult.winner).count p
        avg_turns := (all_turns.sum : ℚ) / (all_turns.length : ℚ)
        min_turns := (rs.map GameResult.turns).foldl min r.turns
        max_turns := (rs.map GameResult.turns).foldl max r.turns }

/-- The distinct failure modes a batch run can hit.  configCheck is the
explicit up-front configuration error the spec asks for; the other two
are the ZeroDivisionError sites actually present in the source: the
modulo at line 46 when num_players is 0, and the division at line 94
when no games were run. -/
inductive BatchError where
  | configCheck
  | zeroDivisionInGame
  | zeroDivisionInAggregation
deriving DecidableEq

/-- run_simulations including its failure behaviour (lines 73-98).  The
source performs no configuration validation: with at least one game and
num_players = 0 the first play_game call raises ZeroDivisionError at
turn % num_players; with num_simulations = 0 the loop body never runs
and the avg computation divides by zero.  Game outcomes are abstracted
as a stream of results, one per simulation. -/
def run_simulations_full (gameResults : Nat → GameResult)
    (num_simulations num_players : Nat) : Except BatchError SimulationStats :=
  if num_players = 0 ∧ 1 ≤ num_simulations then
    Except.error BatchError.zeroDivisionInGame
  else
    match run_simulations ((List.range num_simulations).map gameResults) with
    | some stats => Except.ok stats
    | none => Except.error BatchError.zeroDivisionInAggregation

/-! Basic facts about the turn step. -/

theorem replenish_positions (decks : Nat → List String) (s : GameState) :
    (replenish decks s).positions = s.positions := by
  unfold replenish; split <;> rfl

theorem replenish_turn (decks : Nat → List String) (s : GameState) :
    (replenish decks s).turn = s.turn := by
  unfold replenish; split <;> rfl

theorem getD_set_eq (l : List Nat) (i a : Nat) (h : i < l.length) :
    (l.set i a).getD i 0 = a := by
  induction l generalizing i with
  | nil => simp at h
  | cons x xs ih =>
    cases i with
    | zero => rfl
    | succ j => simpa [List.getD] using ih j (by simpa using h)

theorem sum_lt_sum_set (l : List Nat) (i a : Nat) (h : i < l.length)
    (ha : l.getD i 0 < a) : l.sum < (l.set i a).sum := by
  induction l generalizing i with
  | nil => simp at h
  | cons x xs ih =>
    cases i with
    | zero =>
      have hx : (x :: xs).getD 0 0 = x := rfl
      rw [hx] at ha
      simp only [List.set, List.sum_cons]
      omega
    | succ j =>
      have hj : j < xs.length := by simpa using h
      have := ih j hj (by simpa [List.getD] using ha)
      simp only [List.set, List.sum_cons]
      omega

theorem moveState_positions (decks : Nat → List String) (n : Nat) (s : GameState) :
    (moveState decks n s).positions =
      s.positions.set (s.turn % n)
        (if s.positions.getD (s.turn % n) 0 < drawnColorIndex decks s
         then drawnColorIndex decks s
         else drawnColorIndex decks s + BOARD_SIZE) := by
  simp [moveState, replenish_positions]

theorem moveState_turn (decks : Nat → List String) (n : Nat) (s : GameState) :
    (moveState decks n s).turn = s.turn := by
  simp [moveState, replenish_turn]

theorem moveState_deck (decks : Nat → List String) (n : Nat) (s : GameState) :
    (moveState decks n s).deck = (replenish decks s).deck := by
  simp [moveState]

theorem moveState_deck_index (decks : Nat → List String) (n : Nat) (s : GameState) :
    (moveState decks n s).deck_index = (replenish decks s).deck_index + 1 := by
  simp [moveState]

theorem moveState_decks_used (decks : Nat → List String) (n : Nat) (s : GameState) :
    (moveState decks n s).decks_used = (replenish decks s).decks_used := by
  simp [moveState]

theorem step_inr_shape (decks : Nat → List String) (n : Nat) (s : GameState)
    (r : GameResult) (h : step decks n s = Sum.inr r) :
    r.winner = s.turn % n ∧ r.turns = s.turn + 1 := by
  unfold step at h
  split at h
  · cases h; exact ⟨rfl, rfl⟩
  · cases h

theorem step_inl_facts (decks : Nat → List String) (n : Nat) (s s1 : GameState)
    (hcur : s.turn % n < s.positions.length)
    (h : step decks n s = Sum.inl s1) :
    s.positions.getD (s.turn % n) 0 < drawnColorIndex decks s ∧
    drawnColorIndex decks s < BOARD_SIZE - 1 ∧
    s1.positions = s.positions.set (s.turn % n) (drawnColorIndex decks s) ∧
    s1.turn = s.turn + 1 ∧
    s1.deck = (replenish decks s).deck ∧
    s1.deck_index = (replenish decks s).deck_index + 1 ∧
    s1.decks_used = (replenish decks s).decks_used := by
  unfold step at h
  split at h
  · cases h
  next hwin =>
    cases h
    rw [moveState_positions, getD_set_eq _ _ _ hcur] at hwin
    by_cases hpc : s.positions.getD (s.turn % n) 0 < drawnColorIndex decks s
    · rw [if_pos hpc] at hwin
      refine ⟨hpc, by omega, ?_, rfl, ?_, ?_, ?_⟩
      · show (moveState decks n s).positions = _
        rw [moveState_positions, if_pos hpc]
      · exact moveState_deck decks n s
      · exact moveState_deck_index decks n s
      · exact moveState_decks_used decks n s
    · rw [if_neg hpc] at hwin
      exact absurd (by rw [BOARD_SIZE_eq]; omega) hwin

/-! The loop invariant on player positions: the vector keeps length
num_players and, at the head of the loop, every position is below the
winning threshold (otherwise the game would already have ended). -/

def PosInv (n : Nat) (s : GameState) : Prop :=
  s.positions.length = n ∧ ∀ q ∈ s.positions, q < BOARD_SIZE - 1

theorem posInv_init (decks : Nat → List String) (n : Nat) :
    PosInv n (initState decks n) := by
  constructor
  · simp [initState]
  · intro q hq
    have : q = 0 := (List.eq_of_mem_replicate (by simpa [initState] using hq))
    simp [this, BOARD_SIZE_eq]

theorem posInv_step (decks : Nat → List String) (n : Nat) (s s1 : GameState)
    (hn : 0 < n) (hinv : PosInv n s) (h : step decks n s = Sum.inl s1) :
    PosInv n s1 ∧ s.positions.sum < s1.positions.sum ∧ s1.turn = s.turn + 1 := by
  obtain ⟨hlen, hbnd⟩ := hinv
  have hcur : s.turn % n < s.positions.length := by
    rw [hlen]; exact Nat.mod_lt _ hn
  obtain ⟨hlt, hC, hpos, hturn, -⟩ := step_inl_facts decks n s s1 hcur h
  refine ⟨⟨?_, ?_⟩, ?_, hturn⟩
  · rw [hpos, List.length_set, hlen]
  · intro q hq
    rw [hpos] at hq
    rcases List.mem_or_eq_of_mem_set hq with hq1 | rfl
    · exact hbnd q hq1
    · exact hC
  · rw [hpos]; exact sum_lt_sum_set _ _ _ hcur hlt

theorem posInv_sum_le (n : Nat) (s : GameState) (hinv : PosInv n s) :
    s.positions.sum ≤ 4 * n := by
  obtain ⟨hlen, hbnd⟩ := hinv
  have h := List.sum_le_card_nsmul s.positions 4
    (fun x hx => by have := hbnd x hx; rw [BOARD_SIZE_eq] at this; omega)
  rw [hlen, smul_eq_mul] at h
  omega

theorem playGameAux_total (decks : Nat → List String) (n : Nat) (hn : 0 < n) :
    ∀ fuel s, PosInv n s → 4 * n - s.positions.sum < fuel →
      ∃ r, playGameAux decks n fuel s = some r ∧ r.winner < n ∧ 1 ≤ r.turns := by
  intro fuel
  induction fuel with
  | zero => intro s _ hm; exact absurd hm (by omega)
  | succ fuel ih =>
    intro s hinv hm
    cases hstep : step decks n s with
    | inr r =>
      obtain ⟨hw, ht⟩ := step_inr_shape decks n s r hstep
      refine ⟨r, by simp [playGameAux, hstep], ?_, by omega⟩
      rw [hw]; exact Nat.mod_lt _ hn
    | inl s1 =>
      obtain ⟨hinv1, hsum, -⟩ := posInv_step decks n s s1 hn hinv hstep
      have hb := posInv_sum_le n s1 hinv1
      obtain ⟨r, hr, hwin, ht⟩ := ih s1 hinv1 (by omega)
      exact ⟨r, by simp [playGameAux, hstep, hr], hwin, ht⟩

/-! Deck bookkeeping across the loop: with 12-card decks the total
number of cards drawn so far (the turn counter) splits into fully
consumed decks of 12 plus the cursor into the current one. -/

theorem step_inl_deck (decks : Nat → List String) (n : Nat) (s s1 : GameState)
    (h : step decks n s = Sum.inl s1) :
    s1.deck = (replenish decks s).deck ∧
    s1.deck_index = (replenish decks s).deck_index + 1 ∧
    s1.decks_used = (replenish decks s).decks_used ∧
    s1.turn = s.turn + 1 := by
  unfold step at h
  split at h
  · cases h
  · cases h
    exact ⟨moveState_deck decks n s, moveState_deck_index decks n s,
      moveState_decks_used decks n s, rfl⟩

theorem replenish_cases (decks : Nat → List String) (s : GameState) :
    (s.deck.length ≤ s.deck_index ∧
      replenish decks s =
        { s with deck := decks s.decks_used, deck_index := 0,
                 decks_used := s.decks_used + 1 }) ∨
    (s.deck_index < s.deck.length ∧ replenish decks s = s) := by
  unfold replenish
  split
  next hle => exact Or.inl ⟨hle, rfl⟩
  next hgt => exact Or.inr ⟨by omega, rfl⟩

def DeckInv (s : GameState) : Prop :=
  s.deck.length = 12 ∧ s.deck_index ≤ 12 ∧ 1 ≤ s.decks_used ∧
    s.turn = 12 * (s.decks_used - 1) + s.deck_index

theorem deckInv_init (decks : Nat → List String) (n : Nat)
    (hdeck : ∀ j, (decks j).length = 12) : DeckInv (initState decks n) := by
  refine ⟨hdeck 0, by simp [initState], by simp [initState], by simp [initState]⟩

theorem deckInv_replenish (decks : Nat → List String) (s : GameState)
    (hdeck : ∀ j, (decks j).length = 12) (hinv : DeckInv s) :
    (replenish decks s).deck.length = 12 ∧
    (replenish decks s).deck_index < 12 ∧
    1 ≤ (replenish decks s).decks_used ∧
    s.turn = 12 * ((replenish decks s).decks_used - 1) +
      (replenish decks s).deck_index := by
  obtain ⟨hlen, hle, hdu, hturn⟩ := hinv
  rcases replenish_cases decks s with ⟨hfull, heq⟩ | ⟨hlt, heq⟩
  · rw [hlen] at hfull
    have hidx : s.deck_index = 12 := by omega
    refine ⟨?_, ?_, ?_, ?_⟩ <;> rw [heq]
    · exact hdeck s.decks_used
    · show (0 : Nat) < 12
      omega
    · show 1 ≤ s.decks_used + 1
      omega
    · show s.turn = 12 * (s.decks_used + 1 - 1) + 0
      omega
  · rw [heq]
    exact ⟨hlen, by omega, hdu, hturn⟩

theorem deckInv_step (decks : Nat → List String) (n : Nat) (s s1 : GameState)
    (hdeck : ∀ j, (decks j).length = 12) (hinv : DeckInv s)
    (h : step decks n s = Sum.inl s1) : DeckInv s1 := by
  obtain ⟨hd, hi, hu, ht⟩ := step_inl_deck decks n s s1 h
  obtain ⟨hlen, hlt, hdu, hturn⟩ := deckInv_replenish decks s hdeck hinv
  unfold DeckInv
  rw [hd, hi, hu, ht]
  exact ⟨hlen, by omega, hdu, by omega⟩

/-! Generic preservation along a run of the loop. -/

theorem run_steps_inl_inv (decks : Nat → List String) (n : Nat)
    (P : GameState → Prop)
    (hpres : ∀ s s1, P s → step decks n s = Sum.inl s1 → P s1) :
    ∀ k s0 s, P s0 → run_steps decks n k s0 = Sum.inl s → P s := by
  intro k
  induction k with
  | zero => intro s0 s h0 hrun; cases hrun; exact h0
  | succ k ih =>
    intro s0 s h0 hrun
    unfold run_steps at hrun
    cases hstep : step decks n s0 with
    | inl s1 =>
      rw [hstep] at hrun
      exact ih s1 s (hpres s0 s1 h0 hstep) hrun
    | inr r => rw [hstep] at hrun; cases hrun

theorem run_steps_inl_turn (decks : Nat → List String) (n : Nat) :
    ∀ k s0 s, run_steps decks n k s0 = Sum.inl s → s.turn = s0.turn + k := by
  intro k
  induction k with
  | zero => intro s0 s hrun; cases hrun; rfl
  | succ k ih =>
    intro s0 s hrun
    unfold run_steps at hrun
    cases hstep : step decks n s0 with
    | inl s1 =>
      rw [hstep] at hrun
      obtain ⟨-, -, -, ht⟩ := step_inl_deck decks n s0 s1 hstep
      have := ih s1 s hrun
      omega
    | inr r => rw [hstep] at hrun; cases hrun

/-! Lemmas about the aggregation: folded minimum and maximum, and mean
bounds. -/

theorem foldl_min_le (ts : List Nat) :
    ∀ t, ts.foldl min t ≤ t ∧ ∀ x ∈ ts, ts.foldl min t ≤ x := by
  induction ts with
  | nil => intro t; exact ⟨le_refl t, by simp⟩
  | cons a as ih =>
    intro t
    obtain ⟨h1, h2⟩ := ih (min t a)
    refine ⟨le_trans h1 (min_le_left t a), ?_⟩
    intro x hx
    rcases List.mem_cons.1 hx with rfl | hx1
    · exact le_trans h1 (min_le_right t x)
    · exact h2 x hx1

theorem foldl_min_mem (ts : List Nat) : ∀ t, ts.foldl min t ∈ t :: ts := by
  induction ts with
  | nil => intro t; simp
  | cons a as ih =>
    intro t
    have h := ih (min t a)
    show as.foldl min (min t a) ∈ t :: a :: as
    rcases List.mem_cons.1 h with he | he
    · rcases min_choice t a with hm | hm
      · rw [he, hm]; exact List.mem_cons_self _ _
      · rw [he, hm]; exact List.mem_cons_of_mem _ (List.mem_cons_self _ _)
    · exact List.mem_cons_of_mem _ (List.mem_cons_of_mem _ he)

theorem le_foldl_max (ts : List Nat) :
    ∀ t, t ≤ ts.foldl max t ∧ ∀ x ∈ ts, x ≤ ts.foldl max t := by
  induction ts with
  | nil => intro t; exact ⟨le_refl t, by simp⟩
  | cons a as ih =>
    intro t
    obtain ⟨h1, h2⟩ := ih (max t a)
    refine ⟨le_trans (le_max_left t a) h1, ?_⟩
    intro x hx
    rcases List.mem_cons.1 hx with rfl | hx1
    · exact le_trans (le_max_right t x) h1
    · exact h2 x hx1

theorem foldl_max_mem (ts : List Nat) : ∀ t, ts.foldl max t ∈ t :: ts := by
  induction ts with
  | nil => intro t; simp
  | cons a as ih =>
    intro t
    have h := ih (max t a)
    show as.foldl max (max t a) ∈ t :: a :: as
    rcases List.mem_cons.1 h with he | he
    · rcases max_choice t a with hm | hm
      · rw [he, hm]; exact List.mem_cons_self _ _
      · rw [he, hm]; exact List.mem_cons_of_mem _ (List.mem_cons_self _ _)
    · exact List.mem_cons_of_mem _ (List.mem_cons_of_mem _ he)

theorem mean_bounds (l : List Nat) (hne : l ≠ []) (m M : Nat)
    (hm : ∀ x ∈ l, m ≤ x) (hM : ∀ x ∈ l, x ≤ M) :
    (m : ℚ) ≤ (l.sum : ℚ) / (l.length : ℚ) ∧
      (l.sum : ℚ) / (l.length : ℚ) ≤ (M : ℚ) := by
  have hlen : 0 < l.length := List.length_pos.2 hne
  have h1 : l.length * m ≤ l.sum := by
    have h := List.card_nsmul_le_sum l m hm
    simpa [smul_eq_mul] using h
  have h2 : l.sum ≤ l.length * M := by
    have h := List.sum_le_card_nsmul l M hM
    simpa [smul_eq_mul] using h
  have hlq : (0 : ℚ) < (l.length : ℚ) := by exact_mod_cast hlen
  constructor
  · rw [le_div_iff₀ hlq]
    calc (m : ℚ) * (l.length : ℚ) = ((l.length * m : Nat) : ℚ) := by push_cast; ring
    _ ≤ (l.sum : ℚ) := by exact_mod_cast h1
  · rw [div_le_iff₀ hlq]
    calc (l.sum : ℚ) ≤ ((l.length * M : Nat) : ℚ) := by exact_mod_cast h2
    _ = (M : ℚ) * (l.length : ℚ) := by push_cast; ring

theorem sum_count_toFinset (l : List Nat) :
    ∑ p ∈ l.toFinset, l.count p = l.length := by
  simp [← Multiset.toFinset_sum_count_eq (l : Multiset Nat)]

/-! The deck produced by any shuffle is a permutation of the base deck. -/

theorem create_deck_perm (σ : Equiv.Perm (Fin baseDeck.length)) :
    (create_deck σ).Perm baseDeck := by
  have h := Equiv.Perm.ofFn_comp_perm σ baseDeck.get
  have he : create_deck σ = List.ofFn (baseDeck.get ∘ σ) := rfl
  have h2 : List.ofFn baseDeck.get = baseDeck := List.ofFn_get baseDeck
  have h3 : (List.ofFn baseDeck.get).Perm baseDeck := by
    rw [h2]
  rw [he]
  exact h.trans h3

theorem count_baseDeck : ∀ c ∈ COLORS, baseDeck.count c = 2 := by decide

/-! Concrete inputs used to instantiate the claim theorems. -/

/-- A deck stream in which every shuffle returns the unshuffled base deck. -/
def constDecks : Nat → List String := fun _ => baseDeck

/-- A deck stream whose first deck is a single Violet card. -/
def violetDecks : Nat → List String := fun _ => ["Violet"]

/-- The rigged deck stream of the spec's concrete scenario: the first
deck deals Green then Yellow. -/
def riggedDecks : Nat → List String :=
  fun k => if k = 0 then ["Green", "Yellow"] else baseDeck

/-! Claim theorems. -/

/-- C1: in play_game, for every turn, with C the drawn card's index in
the fixed colour ordering and p the current player's position before the
move, the move sets the position to C when C > p and to C + BOARD_SIZE
(C + 6) otherwise, including when C = p. -/
theorem C1_movement_rule (decks : Nat → List String) (n : Nat) (s : GameState)
    (h : s.turn % n < s.positions.length) :
    (moveState decks n s).positions.getD (s.turn % n) 0 =
      if s.positions.getD (s.turn % n) 0 < drawnColorIndex decks s
      then drawnColorIndex decks s
      else drawnColorIndex decks s + BOARD_SIZE := by
  rw [moveState_positions, getD_set_eq _ _ _ h]

theorem C1_movement_rule_witness :
    ((initState constDecks 1).turn % 1 <
        (initState constDecks 1).positions.length) ∧
    (moveState constDecks 1 (initState constDecks 1)).positions.getD
        ((initState constDecks 1).turn % 1) 0 =
      if (initState constDecks 1).positions.getD
            ((initState constDecks 1).turn % 1) 0 <
          drawnColorIndex constDecks (initState constDecks 1)
      then drawnColorIndex constDecks (initState constDecks 1)
      else drawnColorIndex constDecks (initState constDecks 1) + BOARD_SIZE :=
  ⟨by decide, C1_movement_rule constDecks 1 (initState constDecks 1) (by decide)⟩

/-- C2: in play_game, when the mover's new position is at least
BOARD_SIZE - 1 (that is, at least 5), the loop returns at once with the
record {winner := current player index, turns := turn counter + 1}, so
the reported count is 1-based and includes the winning turn. -/
theorem C2_win_check (decks : Nat → List String) (n : Nat) (s : GameState)
    (h : BOARD_SIZE - 1 ≤ (moveState decks n s).positions.getD (s.turn % n) 0) :
    step decks n s = Sum.inr { winner := s.turn % n, turns := s.turn + 1 } := by
  unfold step
  rw [if_pos h]

theorem C2_win_check_witness :
    (BOARD_SIZE - 1 ≤
      (moveState violetDecks 1 (initState violetDecks 1)).positions.getD
        ((initState violetDecks 1).turn % 1) 0) ∧
    step violetDecks 1 (initState violetDecks 1) =
      Sum.inr { winner := (initState violetDecks 1).turn % 1,
                turns := (initState violetDecks 1).turn + 1 } :=
  ⟨by decide, C2_win_check violetDecks 1 (initState violetDecks 1) (by decide)⟩

/-- C3 counterexample: the claimed trace is false on the code: Green's
index in COLORS is 3, not 2, and Yellow's is 2, not 1, so the first draw
of the rigged game moves player 0 from 0 to 3, not to 2. -/
theorem C3_trace_counterexample :
    ¬ (COLORS.indexOf "Green" = 2 ∧ COLORS.indexOf "Yellow" = 1 ∧
       (moveState riggedDecks 1 (initState riggedDecks 1)).positions.getD 0 0 = 2) := by
  decide

/-- C3 amended: in the rigged 1-player game with decks [Green, Yellow],
Green has colour index 3 and Yellow colour index 2; turn 1 moves player
0 from 0 to 3 (3 > 0), turn 2 draws Yellow and, since 2 ≤ 3, moves the
player to 2 + 6 = 8, which meets the win threshold, so the game returns
{winner := 0, turns := 2}. -/
theorem C3_rigged_game :
    COLORS.indexOf "Green" = 3 ∧ COLORS.indexOf "Yellow" = 2 ∧
    run_steps riggedDecks 1 1 (initState riggedDecks 1) =
      Sum.inl { positions := [3], deck := ["Green", "Yellow"],
                deck_index := 1, turn := 1, decks_used := 1 } ∧
    (moveState riggedDecks 1
        { positions := [3], deck := ["Green", "Yellow"],
          deck_index := 1, turn := 1, decks_used := 1 }).positions = [8] ∧
    play_game riggedDecks 1 5 = some { winner := 0, turns := 2 } :=
  ⟨rfl, rfl, rfl, rfl, rfl⟩

/-- C7: every deck produced by create_deck has exactly 12 entries, is a
permutation of the base multiset, and contains each of the 6 fixed
colours exactly twice, for every shuffle: the shuffle permutes but never
adds, drops, or duplicates cards. -/
theorem C7_deck_composition (σ : Equiv.Perm (Fin baseDeck.length)) :
    (create_deck σ).length = 12 ∧
    (create_deck σ).Perm baseDeck ∧
    ∀ c ∈ COLORS, (create_deck σ).count c = 2 := by
  have hp := create_deck_perm σ
  refine ⟨?_, hp, ?_⟩
  · rw [hp.length_eq]; rfl
  · intro c hc
    rw [hp.count_eq]
    exact count_baseDeck c hc

theorem C7_deck_composition_witness :
    (create_deck (Equiv.refl (Fin baseDeck.length))).length = 12 ∧
    "Red" ∈ COLORS ∧
    (create_deck (Equiv.refl (Fin baseDeck.length))).count "Red" = 2 :=
  ⟨(C7_deck_composition (Equiv.refl _)).1, by decide,
    (C7_deck_composition (Equiv.refl _)).2.2 "Red" (by decide)⟩

/-- C4: for every number of players at least 1 and every sequence of
decks supplied by the shuffle, play_game terminates (fuel 4n + 1 loop
iterations always suffice) and returns exactly one result whose winner
index lies in [0, num_players) and whose turn count is at least 1. -/
theorem C4_termination (decks : Nat → List String) (n : Nat) (hn : 1 ≤ n) :
    ∃ r, play_game decks n (4 * n + 1) = some r ∧ r.winner < n ∧ 1 ≤ r.turns := by
  have h0 : (initState decks n).positions.sum = 0 := by simp [initState]
  exact playGameAux_total decks n hn (4 * n + 1) (initState decks n)
    (posInv_init decks n) (by rw [h0]; omega)

theorem C4_termination_witness :
    1 ≤ 1 ∧ ∃ r, play_game constDecks 1 (4 * 1 + 1) = some r ∧
      r.winner < 1 ∧ 1 ≤ r.turns :=
  ⟨by decide, C4_termination constDecks 1 (by decide)⟩

/-- C5: for every batch of at least one recorded game, run_simulations
returns stats whose wins_per_player values (summed over the player
indices that occur as winners; absent players count 0) add up to the
number of games, whose avg_turns is the arithmetic mean of the per-game
turn counts, and whose min_turns and max_turns are the extremes of the
recorded turn counts, with min_turns ≤ avg_turns ≤ max_turns. -/
theorem C5_aggregation (results : List GameResult) (h : 1 ≤ results.length) :
    ∃ stats, run_simulations results = some stats ∧
      (∑ p ∈ (results.map GameResult.winner).toFinset, stats.wins_per_player p
          = results.length) ∧
      stats.avg_turns = ((results.map GameResult.turns).sum : ℚ) /
          ((results.map GameResult.turns).length : ℚ) ∧
      stats.min_turns ∈ results.map GameResult.turns ∧
      stats.max_turns ∈ results.map GameResult.turns ∧
      (∀ t ∈ results.map GameResult.turns,
        stats.min_turns ≤ t ∧ t ≤ stats.max_turns) ∧
      (stats.min_turns : ℚ) ≤ stats.avg_turns ∧
      stats.avg_turns ≤ (stats.max_turns : ℚ) := by
  match results with
  | [] => exact absurd h (by simp)
  | r :: rs =>
    have hm : ∀ x ∈ (r :: rs).map GameResult.turns,
        (rs.map GameResult.turns).foldl min r.turns ≤ x := by
      intro x hx
      rw [List.map_cons] at hx
      rcases List.mem_cons.1 hx with rfl | hx1
      · exact (foldl_min_le _ _).1
      · exact (foldl_min_le _ _).2 x hx1
    have hM : ∀ x ∈ (r :: rs).map GameResult.turns,
        x ≤ (rs.map GameResult.turns).foldl max r.turns := by
      intro x hx
      rw [List.map_cons] at hx
      rcases List.mem_cons.1 hx with rfl | hx1
      · exact (le_foldl_max _ _).1
      · exact (le_foldl_max _ _).2 x hx1
    refine ⟨_, rfl, ?_, rfl, ?_, ?_, ?_, ?_, ?_⟩
    · show ∑ p ∈ ((r :: rs).map GameResult.winner).toFinset,
          ((r :: rs).map GameResult.winner).count p = (r :: rs).length
      rw [sum_count_toFinset]
      exact List.length_map _ _
    · exact foldl_min_mem _ _
    · exact foldl_max_mem _ _
    · exact fun t ht => ⟨hm t ht, hM t ht⟩
    · exact (mean_bounds _ (by simp) _ _ hm hM).1
    · exact (mean_bounds _ (by simp) _ _ hm hM).2

theorem C5_aggregation_witness :
    1 ≤ ([⟨0, 3⟩, ⟨1, 5⟩] : List GameResult).length ∧
    ∃ stats,
      run_simulations [⟨0, 3⟩, ⟨1, 5⟩] = some stats ∧
      (∑ p ∈ (([⟨0, 3⟩, ⟨1, 5⟩] : List GameResult).map GameResult.winner).toFinset,
          stats.wins_per_player p
          = ([⟨0, 3⟩, ⟨1, 5⟩] : List GameResult).length) ∧
      stats.avg_turns =
        ((([⟨0, 3⟩, ⟨1, 5⟩] : List GameResult).map GameResult.turns).sum : ℚ) /
          ((([⟨0, 3⟩, ⟨1, 5⟩] : List GameResult).map GameResult.turns).length : ℚ) ∧
      stats.min_turns ∈ ([⟨0, 3⟩, ⟨1, 5⟩] : List GameResult).map GameResult.turns ∧
      stats.max_turns ∈ ([⟨0, 3⟩, ⟨1, 5⟩] : List GameResult).map GameResult.turns ∧
      (∀ t ∈ ([⟨0, 3⟩, ⟨1, 5⟩] : List GameResult).map GameResult.turns,
        stats.min_turns ≤ t ∧ t ≤ stats.max_turns) ∧
      (stats.min_turns : ℚ) ≤ stats.avg_turns ∧
      stats.avg_turns ≤ (stats.max_turns : ℚ) :=
  ⟨by decide, C5_aggregation [⟨0, 3⟩, ⟨1, 5⟩] (by decide)⟩

/-- C6: every card draw strictly increases the moving player's position:
when the mover's index is in range and its position before the move is
at most 4 (as it always is before a winning move), the position after
the move is strictly greater, because either C exceeds the old position
directly or C + 6 does. -/
theorem C6_strict_progress (decks : Nat → List String) (n : Nat) (s : GameState)
    (h : s.turn % n < s.positions.length)
    (h4 : s.positions.getD (s.turn % n) 0 ≤ BOARD_SIZE - 2) :
    s.positions.getD (s.turn % n) 0 <
      (moveState decks n s).positions.getD (s.turn % n) 0 := by
  rw [moveState_positions, getD_set_eq _ _ _ h]
  split
  next hlt => exact hlt
  next hge => rw [BOARD_SIZE_eq] at h4 ⊢; omega

theorem C6_strict_progress_witness :
    ((initState constDecks 1).turn % 1 <
        (initState constDecks 1).positions.length) ∧
    ((initState constDecks 1).positions.getD
        ((initState constDecks 1).turn % 1) 0 ≤ BOARD_SIZE - 2) ∧
    (initState constDecks 1).positions.getD
        ((initState constDecks 1).turn % 1) 0 <
      (moveState constDecks 1 (initState constDecks 1)).positions.getD
        ((initState constDecks 1).turn % 1) 0 :=
  ⟨by decide, by decide,
    C6_strict_progress constDecks 1 (initState constDecks 1)
      (by decide) (by decide)⟩

/-- C8: along any run of the game with 12-card shuffled decks, the card
is drawn with the cursor in range on every turn: after the replenishment
check the cursor is strictly below the deck length (replenishment
replaces an exhausted deck with a fresh full deck and resets the cursor
to 0); moreover the turn counter equals the number of completed loop
iterations and any state reached after more than 12 iterations has
consumed at least two decks, so at least one replenishment occurred. -/
theorem C8_replenishment (decks : Nat → List String) (n k : Nat) (s : GameState)
    (hdeck : ∀ j, (decks j).Perm baseDeck)
    (hrun : run_steps decks n k (initState decks n) = Sum.inl s) :
    (replenish decks s).deck_index < (replenish decks s).deck.length ∧
    s.turn = k ∧
    (12 < k → 2 ≤ s.decks_used) := by
  have hlen : ∀ j, (decks j).length = 12 := fun j => by
    rw [(hdeck j).length_eq]; rfl
  have hinv : DeckInv s :=
    run_steps_inl_inv decks n DeckInv
      (fun s0 s1 hs hstep => deckInv_step decks n s0 s1 hlen hs hstep)
      k _ s (deckInv_init decks n hlen) hrun
  have hturn : s.turn = k := by
    have h := run_steps_inl_turn decks n k _ s hrun
    simpa [initState] using h
  obtain ⟨hd12, hle, hdu, hrel⟩ := hinv
  obtain ⟨hr1, hr2, hr3, hr4⟩ := deckInv_replenish decks s hlen ⟨hd12, hle, hdu, hrel⟩
  refine ⟨by rw [hr1]; exact hr2, hturn, fun hk => by omega⟩

theorem C8_replenishment_witness :
    (∀ j, (constDecks j).Perm baseDeck) ∧
    ((replenish constDecks (initState constDecks 2)).deck_index <
        (replenish constDecks (initState constDecks 2)).deck.length ∧
      (initState constDecks 2).turn = 0 ∧
      (12 < 0 → 2 ≤ (initState constDecks 2).decks_used)) :=
  ⟨fun _ => List.Perm.refl _,
    C8_replenishment constDecks 2 0 (initState constDecks 2)
      (fun _ => List.Perm.refl _) rfl⟩

/-- C9 counterexample: with the invalid configuration num_simulations =
0 the source runs no games, reaches the aggregation, and fails there
with a division by zero; it does not produce an up-front configuration
error. -/
theorem C9_counterexample :
    run_simulations_full (fun _ => { winner := 0, turns := 1 }) 0 2 =
      Except.error BatchError.zeroDivisionInAggregation ∧
    BatchError.zeroDivisionInAggregation ≠ BatchError.configCheck :=
  ⟨rfl, by decide⟩

/-- C9 amended: the source performs no configuration validation.  An
invalid configuration (num_simulations = 0 or num_players = 0) makes the
batch fail with a ZeroDivisionError, raised either inside the first game
(num_players = 0 with at least one simulation requested) or in the
aggregation after the empty simulation loop (num_simulations = 0); no
configuration error is reported before running the simulations. -/
theorem C9_no_config_check (gameResults : Nat → GameResult)
    (num_simulations num_players : Nat)
    (h : num_simulations = 0 ∨ num_players = 0) :
    ∃ e, run_simulations_full gameResults num_simulations num_players =
        Except.error e ∧ e ≠ BatchError.configCheck := by
  rcases h with rfl | rfl
  · refine ⟨BatchError.zeroDivisionInAggregation, ?_, by decide⟩
    simp [run_simulations_full, run_simulations]
  · by_cases hns : 1 ≤ num_simulations
    · refine ⟨BatchError.zeroDivisionInGame, ?_, by decide⟩
      simp [run_simulations_full, hns]
    · have h0 : num_simulations = 0 := by omega
      subst h0
      refine ⟨BatchError.zeroDivisionInAggregation, ?_, by decide⟩
      simp [run_simulations_full, run_simulations]

theorem C9_no_config_check_witness :
    ((0 : Nat) = 0 ∨ (2 : Nat) = 0) ∧
    ∃ e, run_simulations_full (fun _ => { winner := 0, turns := 1 }) 0 2 =
        Except.error e ∧ e ≠ BatchError.configCheck :=
  ⟨Or.inl rfl,
    C9_no_config_check (fun _ => { winner := 0, turns := 1 }) 0 2 (Or.inl rfl)⟩

/-- C10: at the start of every turn of a game with at least one player,
no player occupies a position at or beyond BOARD_SIZE - 1 = 5, and
whenever the drawn card's colour index C is at most the moving player's
current position the wrapped position C + 6 meets the win threshold, so
that wrapping move ends the game immediately with the mover as winner. -/
theorem C10_wrap_wins (decks : Nat → List String) (n : Nat) (s : GameState)
    (hn : 0 < n) (hreach : Reachable decks n s) :
    (∀ q ∈ s.positions, q < BOARD_SIZE - 1) ∧
    (drawnColorIndex decks s ≤ s.positions.getD (s.turn % n) 0 →
      step decks n s = Sum.inr { winner := s.turn % n, turns := s.turn + 1 }) := by
  obtain ⟨k, hrun⟩ := hreach
  have hinv : PosInv n s :=
    run_steps_inl_inv decks n (PosInv n)
      (fun s0 s1 hs hstep => (posInv_step decks n s0 s1 hn hs hstep).1)
      k _ s (posInv_init decks n) hrun
  obtain ⟨hlen, hbnd⟩ := hinv
  refine ⟨hbnd, fun hwrap => ?_⟩
  have hcur : s.turn % n < s.positions.length := by
    rw [hlen]; exact Nat.mod_lt _ hn
  have hnotlt : ¬ (s.positions.getD (s.turn % n) 0 < drawnColorIndex decks s) := by
    omega
  unfold step
  rw [moveState_positions, getD_set_eq _ _ _ hcur, if_neg hnotlt,
    if_pos (by rw [BOARD_SIZE_eq]; omega)]

theorem C10_wrap_wins_witness :
    0 < 1 ∧ Reachable constDecks 1 (initState constDecks 1) ∧
    ((∀ q ∈ (initState constDecks 1).positions, q < BOARD_SIZE - 1) ∧
      (drawnColorIndex constDecks (initState constDecks 1) ≤
          (initState constDecks 1).positions.getD
            ((initState constDecks 1).turn % 1) 0 →
        step constDecks 1 (initState constDecks 1) =
          Sum.inr { winner := (initState constDecks 1).turn % 1,
                    turns := (initState constDecks 1).turn + 1 })) :=
  ⟨by decide, ⟨0, rfl⟩,
    C10_wrap_wins constDecks 1 (initState constDecks 1) (by decide) ⟨0, rfl⟩⟩

end SpectrumShuffle
